import Mathlib

/-!
Verification development for `nscsim/quasielastic/incoherent.py`.

The module computes the incoherent intermediate scattering function.
We embed the numeric pipeline shallowly:

* 3-vectors are triples of reals, trajectories are lists of 3-vectors;
* a complex amplitude `a(q, t) = exp(-i q·r(t))` per wavevector and frame;
* `np.correlate(x, x, "full")` becomes `correlateFull`;
* the lag-weight array built from `np.arange`/`np.concatenate` becomes
  `lagWeights`;
* `serial_worker`, `intermediate_vector_set`, `intermediate` and
  `intermediate_spherical` are embedded over lists, with
  `intermediate_vector_set` returning `Option` since `functools.reduce`
  over an empty iterable raises.

Worker-pool orchestration (`pathos`) is not modelled; the reduction over
atoms is written in a fixed order, and order-independence is proved
separately.
-/

/-- Points and wavevectors are triples of reals, mirroring rows of the
numpy arrays of shape `(·, 3)`. -/
abbrev Vec3 : Type := ℝ × ℝ × ℝ

/-- Default 3-vector used by total list accessors. -/
def zero3 : Vec3 := ((0 : ℝ), (0 : ℝ), (0 : ℝ))

/-- Dot product of two 3-vectors, as in `np.tensordot(q, atomic_tr, axes=(1, 1))`
entrywise. -/
def dot3 (a b : Vec3) : ℝ :=
  a.1 * b.1 + a.2.1 * b.2.1 + a.2.2 * b.2.2

/-- Complex scattering amplitude `np.exp(-1j * (q · r))` for one wavevector
and one frame position. -/
noncomputable def amp (qv r : Vec3) : ℂ :=
  Complex.exp (-Complex.I * (dot3 qv r : ℝ))

/-- Amplitude series of one atom for one wavevector: row of
`ai = np.exp(-1j * np.tensordot(q, atomic_tr, axes=(1, 1)))`. -/
noncomputable def ampSeries (qv : Vec3) (tr : List Vec3) : List ℂ :=
  tr.map (amp qv)

/-- Lag weights built in `serial_worker`:
`w = np.arange(1, 1 + n); w = 1.0 / np.concatenate((w, w[::-1][1:]))`. -/
noncomputable def lagWeights (n : ℕ) : List ℝ :=
  let w := (List.range n).map (fun (i : ℕ) => ((i : ℝ) + 1))
  (w ++ w.reverse.drop 1).map (fun v => 1.0 / v)

/-- Full linear cross-correlation of a complex sequence with itself,
`np.correlate(x, x, "full")`: output index `j` corresponds to lag
`j - (N - 1)` and holds `Σ_t x[t + j - (N-1)] * conj(x[t])` over the
overlapping terms. -/
noncomputable def correlateFull (x : List ℂ) : List ℂ :=
  (List.range (2 * x.length - 1)).map (fun j =>
    ∑ t ∈ Finset.range x.length,
      if x.length - 1 ≤ t + j ∧ t + j < x.length - 1 + x.length then
        x.getD (t + j - (x.length - 1)) 0 * (starRingEnd ℂ) (x.getD t 0)
      else 0)

/-- Per-atom worker inside `intermediate_vector_set`: for each wavevector,
multiply the full autocorrelation of the amplitude series elementwise by
the lag weights and the squared cross-section, then keep the half from
`len(row) // 2` on. -/
noncomputable def serial_worker (q : List Vec3) (atomic_tr : List Vec3)
    (atomic_s_inc : ℝ) : List (List ℂ) :=
  q.map (fun qv =>
    let x := ampSeries qv atomic_tr
    let row := List.zipWith
      (fun wi c => ((wi * atomic_s_inc ^ 2 : ℝ) : ℂ) * c)
      (lagWeights atomic_tr.length) (correlateFull x)
    row.drop (row.length / 2))

/-- Sum of squared weights, `np.sum(s_inc * s_inc)`. -/
noncomputable def sumSq (s : List ℝ) : ℝ :=
  (s.map (fun x => x * x)).sum

/-- Elementwise matrix addition `np.add` on list-of-rows matrices. -/
noncomputable def matAdd (A B : List (List ℂ)) : List (List ℂ) :=
  List.zipWith (fun r r' => List.zipWith (fun a b => a + b) r r') A B

/-- Elementwise division of a matrix by a real scalar, `result / c`. -/
noncomputable def matDivR (M : List (List ℂ)) (c : ℝ) : List (List ℂ) :=
  M.map (fun r => r.map (fun z => z / (c : ℂ)))

/-- Entry accessor for list-of-rows matrices (out-of-range reads give 0). -/
def ent (M : List (List ℂ)) (i j : ℕ) : ℂ :=
  (M.getD i []).getD j 0

/-- Shape predicate: `p` rows, every row of length `f`. -/
def HasShape (M : List (List ℂ)) (p f : ℕ) : Prop :=
  M.length = p ∧ ∀ r ∈ M, r.length = f

/-- Embedding of `intermediate_vector_set`: map `serial_worker` over the
zip of atoms and weights (as `pool.uimap(serial_worker, tr, s_inc)`
does — mismatched lengths are silently truncated), reduce with `np.add`
(`functools.reduce`, which raises on an empty sequence, hence `Option`),
and divide by `np.sum(s_inc * s_inc)`. -/
noncomputable def intermediate_vector_set (tr : List (List Vec3))
    (q : List Vec3) (s_inc : List ℝ) : Option (List (List ℂ)) :=
  match List.zipWith (fun t s => serial_worker q t s) tr s_inc with
  | [] => none
  | x :: xs => some (matDivR (xs.foldl matAdd x) (sumSq s_inc))

/-- Default averaging policy of `intermediate`:
`np.average(sf, axis=0)`, the unweighted mean over the wavevector axis. -/
noncomputable def average_axis0 (M : List (List ℂ)) : List ℂ :=
  (List.range ((M.getD 0 []).length)).map (fun k =>
    (M.map (fun r => r.getD k 0)).sum / (M.length : ℂ))

/-- Embedding of `intermediate`: apply the averaging policy to the result
of `intermediate_vector_set`.  The source's default policy
`(np.average, None, dict(axis=0))` is `average_axis0`. -/
noncomputable def intermediate (tr : List (List Vec3)) (q : List Vec3)
    (s_inc : List ℝ) (averaging : List (List ℂ) → List ℂ) :
    Option (List ℂ) :=
  (intermediate_vector_set tr q s_inc).map averaging

/-- Embedding of `intermediate_spherical`.

Modelled from the spec: `qvec.sphere_average`, the wavevector-sampling
collaborator, is not part of the sources under verification; per the
spec it is "a function `magnitude -> set of 3-D wavevectors`" consumed
as-is, so it is taken here as the parameter `sphereAvg` and applied to
each requested magnitude in input order.  Each magnitude's wavevector
set is fed to `intermediate` with the default averaging policy and the
real part of the averaged series is kept (`np.real`). -/
noncomputable def intermediate_spherical (sphereAvg : ℝ → List Vec3)
    (tr : List (List Vec3)) (q_mod : List ℝ) (s_inc : List ℝ) :
    List (Option (List ℝ)) :=
  q_mod.map (fun m =>
    Option.map (fun row => row.map Complex.re)
      (intermediate tr (sphereAvg m) s_inc average_axis0))

/-- Per-atom intensity written from the spec's words (section 4.1):
amplitudes `a(q,t) = exp(-i q·r(t))`; for each wavevector the full linear
autocorrelation `corr[k] = Σ_t a[t+k]·conj(a[t])` (the spec's "or
equivalent formulation") over the `#frames − k` overlapping pairs;
multiplied by the reciprocal-overlap-count lag weight `1/(#frames − k)`
and by `weight²`; restricted to non-negative lags `k = 0 … #frames − 1`. -/
noncomputable def spec_atom_intensity (q : List Vec3) (tr : List Vec3)
    (s : ℝ) : List (List ℂ) :=
  q.map (fun qv =>
    (List.range tr.length).map (fun (k : ℕ) =>
      ((1 / ((tr.length : ℝ) - (k : ℝ)) * s ^ 2 : ℝ) : ℂ) *
        ∑ t ∈ Finset.range (tr.length - k),
          amp qv (tr.getD (t + k) zero3) *
            (starRingEnd ℂ) (amp qv (tr.getD t zero3))))

lemma length_lagWeights (n : ℕ) : (lagWeights n).length = 2 * n - 1 := by
  simp only [lagWeights, List.length_map, List.length_append,
    List.length_drop, List.length_reverse, List.length_range]
  omega

lemma length_ampSeries (qv : Vec3) (tr : List Vec3) :
    (ampSeries qv tr).length = tr.length := by
  simp [ampSeries]

lemma length_correlateFull (x : List ℂ) :
    (correlateFull x).length = 2 * x.length - 1 := by
  simp [correlateFull]

lemma lagWeights_getD_lt (n j : ℕ) (hj : j < n) :
    (lagWeights n).getD j 0 = 1 / ((j : ℝ) + 1) := by
  have hj2 : j < (lagWeights n).length := by
    rw [length_lagWeights]; omega
  rw [List.getD_eq_getElem _ _ hj2]
  simp only [lagWeights, List.getElem_map]
  rw [List.getElem_append_left (by simpa using hj)]
  simp [List.getElem_map, List.getElem_range]
  norm_num

lemma lagWeights_getD_ge (n j : ℕ) (h1 : n ≤ j) (h2 : j < 2 * n - 1) :
    (lagWeights n).getD j 0 = 1 / ((2 * n - 1 - j : ℕ) : ℝ) := by
  have hj2 : j < (lagWeights n).length := by
    rw [length_lagWeights]; omega
  rw [List.getD_eq_getElem _ _ hj2]
  simp only [lagWeights, List.getElem_map]
  rw [List.getElem_append_right (by simpa using h1)]
  rw [List.getElem_drop, List.getElem_reverse]
  simp only [List.getElem_map, List.getElem_range, List.length_map,
    List.length_range]
  have hidx : n - 1 - (1 + (j - n)) = 2 * n - 2 - j := by omega
  rw [hidx]
  have hc : ((2 * n - 2 - j : ℕ) : ℝ) + 1 = ((2 * n - 1 - j : ℕ) : ℝ) := by
    have : (2 * n - 2 - j) + 1 = 2 * n - 1 - j := by omega
    rw [← this]
    push_cast
    ring
  rw [hc]
  norm_num

lemma lagWeights_pos (n : ℕ) : ∀ x ∈ lagWeights n, 0 < x := by
  intro x hx
  simp only [lagWeights, List.mem_map] at hx
  obtain ⟨v, hv, rfl⟩ := hx
  have hv1 : ∃ i : ℕ, i < n ∧ v = (i : ℝ) + 1 := by
    rcases List.mem_append.1 hv with h | h
    · simp only [List.mem_map, List.mem_range] at h
      obtain ⟨i, hi, rfl⟩ := h
      exact ⟨i, hi, rfl⟩
    · have h' := List.mem_reverse.1 (List.mem_of_mem_drop h)
      simp only [List.mem_map, List.mem_range] at h'
      obtain ⟨i, hi, rfl⟩ := h'
      exact ⟨i, hi, rfl⟩
  obtain ⟨i, _, rfl⟩ := hv1
  have : (0 : ℝ) < (i : ℝ) + 1 := by positivity
  norm_num [this]

lemma lagWeights_reverse_core (A : List ℝ) :
    (A ++ A.reverse.drop 1).reverse = A ++ A.reverse.drop 1 := by
  rcases eq_or_ne A [] with h | h
  · subst h; simp
  · have hA := List.dropLast_append_getLast h
    have hrev : A.reverse = A.getLast h :: A.dropLast.reverse := by
      conv_lhs => rw [← hA]
      rw [List.reverse_append]
      simp
    rw [List.drop_one, hrev, List.tail_cons, List.reverse_append, hrev,
      List.reverse_reverse]
    conv_rhs => rw [← hA]
    rw [List.append_assoc]
    simp

lemma lagWeights_reverse (n : ℕ) :
    (lagWeights n).reverse = lagWeights n := by
  simp only [lagWeights]
  rw [← List.map_reverse, lagWeights_reverse_core]

lemma lagWeights_getD_center_add (n k : ℕ) (hk : k < n) :
    (lagWeights n).getD (n - 1 + k) 0 = 1 / ((n : ℝ) - (k : ℝ)) := by
  rcases Nat.eq_zero_or_pos k with rfl | hk1
  · simp only [Nat.add_zero]
    rw [lagWeights_getD_lt n (n - 1) (by omega)]
    have : ((n - 1 : ℕ) : ℝ) + 1 = (n : ℝ) - (0 : ℕ) := by
      have h1 : (n - 1) + 1 = n := by omega
      rw [← h1]
      push_cast
      ring
    rw [this]
  · rw [lagWeights_getD_ge n (n - 1 + k) (by omega) (by omega)]
    have h1 : 2 * n - 1 - (n - 1 + k) = n - k := by omega
    rw [h1, Nat.cast_sub hk.le]

lemma lagWeights_getD_center_sub (n k : ℕ) (hk : k < n) :
    (lagWeights n).getD (n - 1 - k) 0 = 1 / ((n : ℝ) - (k : ℝ)) := by
  rw [lagWeights_getD_lt n (n - 1 - k) (by omega)]
  have h1 : ((n - 1 - k : ℕ) : ℝ) + 1 = ((n - k : ℕ) : ℝ) := by
    have : (n - 1 - k) + 1 = n - k := by omega
    rw [← this]
    push_cast
    ring
  rw [h1, Nat.cast_sub hk.le]

/-- C4: for every `#frames = n ≥ 1`, the lag-weight sequence built inside
the per-atom computation has length exactly `2*n - 1`, is symmetric about
its center, is strictly positive everywhere, and its entry at offset `k`
from the center (in either direction) equals `1/(n - k)`, the reciprocal
of the number of overlapping frame pairs at that lag. -/
theorem claim_C4_lag_weights (n : ℕ) (hn : 1 ≤ n) :
    (lagWeights n).length = 2 * n - 1 ∧
    (lagWeights n).reverse = lagWeights n ∧
    (∀ x ∈ lagWeights n, 0 < x) ∧
    (∀ k, k < n →
      (lagWeights n).getD (n - 1 + k) 0 = 1 / ((n : ℝ) - (k : ℝ)) ∧
      (lagWeights n).getD (n - 1 - k) 0 = 1 / ((n : ℝ) - (k : ℝ))) := by
  refine ⟨length_lagWeights n, lagWeights_reverse n, lagWeights_pos n,
    fun k hk => ⟨lagWeights_getD_center_add n k hk,
      lagWeights_getD_center_sub n k hk⟩⟩

/-- Witness for C4 at `n = 2`. -/
theorem claim_C4_lag_weights_witness :
    (lagWeights 2).length = 2 * 2 - 1 ∧
    (lagWeights 2).getD (2 - 1 + 1) 0 = 1 / (((2 : ℕ) : ℝ) - ((1 : ℕ) : ℝ)) := by
  obtain ⟨h1, _, _, h4⟩ := claim_C4_lag_weights 2 (by decide)
  exact ⟨h1, (h4 1 (by decide)).1⟩

lemma sum_range_ite_lt {M : Type} [AddCommMonoid M] (n m : ℕ) (h : m ≤ n)
    (g : ℕ → M) :
    (∑ t ∈ Finset.range n, if t < m then g t else 0) =
      ∑ t ∈ Finset.range m, g t := by
  rw [← Finset.sum_subset (Finset.range_subset.2 h)
    (fun x _ hx => by
      rw [if_neg]
      intro hlt
      exact hx (Finset.mem_range.2 hlt))]
  exact Finset.sum_congr rfl (fun x hx => if_pos (Finset.mem_range.1 hx))

lemma ampSeries_getD (qv : Vec3) (tr : List Vec3) (t : ℕ)
    (ht : t < tr.length) :
    (ampSeries qv tr).getD t 0 = amp qv (tr.getD t zero3) := by
  have ht' : t < (ampSeries qv tr).length := by
    rw [length_ampSeries]; exact ht
  rw [List.getD_eq_getElem _ _ ht', List.getD_eq_getElem _ _ ht]
  simp [ampSeries]

lemma sw_ent (q : List Vec3) (tr : List Vec3) (s : ℝ) (i k : ℕ)
    (hn : 1 ≤ tr.length) (hi : i < q.length) (hk : k < tr.length) :
    ent (serial_worker q tr s) i k =
      ((1 / ((tr.length : ℝ) - (k : ℝ)) * s ^ 2 : ℝ) : ℂ) *
        ∑ t ∈ Finset.range (tr.length - k),
          amp (q.getD i zero3) (tr.getD (t + k) zero3) *
            (starRingEnd ℂ) (amp (q.getD i zero3) (tr.getD t zero3)) := by
  set n := tr.length with hn_def
  set qv := q.getD i zero3 with hqv
  set x := ampSeries qv tr with hx
  have hxlen : x.length = n := length_ampSeries qv tr
  have hrowlen :
      (List.zipWith (fun wi c => ((wi * s ^ 2 : ℝ) : ℂ) * c)
        (lagWeights n) (correlateFull x)).length = 2 * n - 1 := by
    rw [List.length_zipWith, length_lagWeights, length_correlateFull, hxlen]
    omega
  have hi' : i < (serial_worker q tr s).length := by
    simp [serial_worker, hi]
  have hrow : (serial_worker q tr s).getD i [] =
      (List.zipWith (fun wi c => ((wi * s ^ 2 : ℝ) : ℂ) * c)
        (lagWeights n) (correlateFull x)).drop (n - 1) := by
    rw [List.getD_eq_getElem _ _ hi']
    simp only [serial_worker, List.getElem_map]
    rw [← List.getD_eq_getElem q zero3 hi, ← hqv, ← hx, hrowlen]
    congr 1
    omega
  rw [ent, hrow]
  have hklen : k < ((List.zipWith (fun wi c => ((wi * s ^ 2 : ℝ) : ℂ) * c)
      (lagWeights n) (correlateFull x)).drop (n - 1)).length := by
    rw [List.length_drop, hrowlen]
    omega
  rw [List.getD_eq_getElem _ _ hklen, List.getElem_drop,
    List.getElem_zipWith]
  have hb1 : n - 1 + k < (lagWeights n).length := by
    rw [length_lagWeights]; omega
  have hb2 : n - 1 + k < (correlateFull x).length := by
    rw [length_correlateFull, hxlen]; omega
  have hlw : (lagWeights n)[n - 1 + k] =
      1 / ((n : ℝ) - (k : ℝ)) := by
    rw [← List.getD_eq_getElem (lagWeights n) 0 hb1]
    exact lagWeights_getD_center_add n k hk
  have hcf : (correlateFull x)[n - 1 + k] =
      ∑ t ∈ Finset.range (n - k),
        amp qv (tr.getD (t + k) zero3) *
          (starRingEnd ℂ) (amp qv (tr.getD t zero3)) := by
    simp only [correlateFull, List.getElem_map, List.getElem_range, hxlen]
    have hstep : ∀ t ∈ Finset.range n,
        (if n - 1 ≤ t + (n - 1 + k) ∧ t + (n - 1 + k) < n - 1 + n then
          x.getD (t + (n - 1 + k) - (n - 1)) 0 * (starRingEnd ℂ) (x.getD t 0)
        else 0) =
        (if t < n - k then
          x.getD (t + k) 0 * (starRingEnd ℂ) (x.getD t 0)
        else 0) := by
      intro t _
      have hcond : (n - 1 ≤ t + (n - 1 + k) ∧ t + (n - 1 + k) < n - 1 + n) ↔
          t < n - k := by omega
      have hidx : t + (n - 1 + k) - (n - 1) = t + k := by omega
      rw [hidx]
      by_cases hc : t < n - k
      · rw [if_pos (hcond.2 hc), if_pos hc]
      · rw [if_neg (fun hab => hc (hcond.1 hab)), if_neg hc]
    rw [Finset.sum_congr rfl hstep,
      sum_range_ite_lt n (n - k) (by omega)]
    refine Finset.sum_congr rfl (fun t ht => ?_)
    have ht' := Finset.mem_range.1 ht
    rw [ampSeries_getD qv tr (t + k) (by omega),
      ampSeries_getD qv tr t (by omega)]
  rw [hlw, hcf]

lemma shape_serial_worker (q : List Vec3) (tr : List Vec3) (s : ℝ) :
    HasShape (serial_worker q tr s) q.length tr.length := by
  constructor
  · simp [serial_worker]
  · intro r hr
    simp only [serial_worker, List.mem_map] at hr
    obtain ⟨qv, _, rfl⟩ := hr
    simp only [List.length_drop, List.length_zipWith, length_lagWeights,
      length_correlateFull, length_ampSeries]
    omega

lemma shape_spec_atom_intensity (q : List Vec3) (tr : List Vec3) (s : ℝ) :
    HasShape (spec_atom_intensity q tr s) q.length tr.length := by
  constructor
  · simp [spec_atom_intensity]
  · intro r hr
    simp only [spec_atom_intensity, List.mem_map] at hr
    obtain ⟨qv, _, rfl⟩ := hr
    simp

lemma spec_atom_intensity_ent (q : List Vec3) (tr : List Vec3) (s : ℝ)
    (i k : ℕ) (hi : i < q.length) (hk : k < tr.length) :
    ent (spec_atom_intensity q tr s) i k =
      ((1 / ((tr.length : ℝ) - (k : ℝ)) * s ^ 2 : ℝ) : ℂ) *
        ∑ t ∈ Finset.range (tr.length - k),
          amp (q.getD i zero3) (tr.getD (t + k) zero3) *
            (starRingEnd ℂ) (amp (q.getD i zero3) (tr.getD t zero3)) := by
  have hi' : i < (spec_atom_intensity q tr s).length := by
    simp [spec_atom_intensity, hi]
  have hrow : (spec_atom_intensity q tr s).getD i [] =
      (List.range tr.length).map (fun (k : ℕ) =>
        ((1 / ((tr.length : ℝ) - (k : ℝ)) * s ^ 2 : ℝ) : ℂ) *
          ∑ t ∈ Finset.range (tr.length - k),
            amp (q.getD i zero3) (tr.getD (t + k) zero3) *
              (starRingEnd ℂ) (amp (q.getD i zero3) (tr.getD t zero3))) := by
    rw [List.getD_eq_getElem _ _ hi']
    simp only [spec_atom_intensity, List.getElem_map]
    rw [← List.getD_eq_getElem q zero3 hi]
  rw [ent, hrow]
  have hk' : k < ((List.range tr.length).map (fun (k : ℕ) =>
      ((1 / ((tr.length : ℝ) - (k : ℝ)) * s ^ 2 : ℝ) : ℂ) *
        ∑ t ∈ Finset.range (tr.length - k),
          amp (q.getD i zero3) (tr.getD (t + k) zero3) *
            (starRingEnd ℂ) (amp (q.getD i zero3) (tr.getD t zero3)))).length := by
    simpa using hk
  rw [List.getD_eq_getElem _ _ hk']
  simp [List.getElem_map, List.getElem_range]

lemma hasShape_row_length (M : List (List ℂ)) (p f i : ℕ)
    (h : HasShape M p f) (hi : i < M.length) : M[i].length = f :=
  h.2 _ (List.getElem_mem hi)

lemma ent_eq_getElem (M : List (List ℂ)) (i j : ℕ) (hi : i < M.length)
    (hj : j < M[i].length) : ent M i j = M[i][j] := by
  rw [ent, List.getD_eq_getElem _ _ hi, List.getD_eq_getElem _ _ hj]

lemma ent_out_row (M : List (List ℂ)) (i j : ℕ) (hi : M.length ≤ i) :
    ent M i j = 0 := by
  rw [ent, List.getD_eq_default _ _ hi]
  simp

lemma ent_out_col (M : List (List ℂ)) (p f i j : ℕ) (h : HasShape M p f)
    (hi : i < M.length) (hj : f ≤ j) : ent M i j = 0 := by
  rw [ent, List.getD_eq_getElem _ _ hi,
    List.getD_eq_default _ _ (by rw [hasShape_row_length M p f i h hi]; exact hj)]

lemma matEq_of_ent (A B : List (List ℂ)) (p f : ℕ) (hA : HasShape A p f)
    (hB : HasShape B p f) (h : ∀ i j, i < p → j < f → ent A i j = ent B i j) :
    A = B := by
  refine List.ext_getElem (by rw [hA.1, hB.1]) (fun i h1 h2 => ?_)
  refine List.ext_getElem ?_ (fun j hj1 hj2 => ?_)
  · rw [hasShape_row_length A p f i hA h1, hasShape_row_length B p f i hB h2]
  · have hip : i < p := by rw [← hA.1]; exact h1
    have hjf : j < f := by rw [← hasShape_row_length A p f i hA h1]; exact hj1
    rw [← ent_eq_getElem A i j h1 hj1, ← ent_eq_getElem B i j h2 hj2]
    exact h i j hip hjf

lemma shape_matAdd (A B : List (List ℂ)) (p f : ℕ) (hA : HasShape A p f)
    (hB : HasShape B p f) : HasShape (matAdd A B) p f := by
  have hlen : (matAdd A B).length = p := by
    simp only [matAdd, List.length_zipWith]
    rw [hA.1, hB.1, min_self]
  constructor
  · exact hlen
  · intro r hr
    rw [List.mem_iff_getElem] at hr
    obtain ⟨i, hi, rfl⟩ := hr
    have hiA : i < A.length := by rw [hA.1, ← hlen]; exact hi
    have hiB : i < B.length := by rw [hB.1, ← hlen]; exact hi
    simp only [matAdd, List.getElem_zipWith, List.length_zipWith]
    rw [hasShape_row_length A p f i hA hiA,
      hasShape_row_length B p f i hB hiB, min_self]

lemma ent_matAdd (A B : List (List ℂ)) (p f : ℕ) (hA : HasShape A p f)
    (hB : HasShape B p f) (i j : ℕ) :
    ent (matAdd A B) i j = ent A i j + ent B i j := by
  have hlen : (matAdd A B).length = p := (shape_matAdd A B p f hA hB).1
  by_cases hi : i < p
  · have hiA : i < A.length := by rw [hA.1]; exact hi
    have hiB : i < B.length := by rw [hB.1]; exact hi
    have hiM : i < (matAdd A B).length := by rw [hlen]; exact hi
    by_cases hj : j < f
    · have hjA : j < A[i].length := by
        rw [hasShape_row_length A p f i hA hiA]; exact hj
      have hjB : j < B[i].length := by
        rw [hasShape_row_length B p f i hB hiB]; exact hj
      have hjM : j < (matAdd A B)[i].length := by
        rw [hasShape_row_length (matAdd A B) p f i
          (shape_matAdd A B p f hA hB) hiM]
        exact hj
      rw [ent_eq_getElem _ i j hiM hjM, ent_eq_getElem A i j hiA hjA,
        ent_eq_getElem B i j hiB hjB]
      simp only [matAdd, List.getElem_zipWith]
    · rw [ent_out_col _ p f i j (shape_matAdd A B p f hA hB) hiM (by omega),
        ent_out_col A p f i j hA hiA (by omega),
        ent_out_col B p f i j hB hiB (by omega)]
      simp
  · rw [ent_out_row _ i j (by omega), ent_out_row A i j (by rw [hA.1]; omega),
      ent_out_row B i j (by rw [hB.1]; omega)]
    simp

lemma foldl_matAdd_shape_ent (l : List (List (List ℂ)))
    (a : List (List ℂ)) (p f : ℕ) (ha : HasShape a p f)
    (hl : ∀ m ∈ l, HasShape m p f) :
    HasShape (l.foldl matAdd a) p f ∧
    ∀ i j, ent (l.foldl matAdd a) i j =
      ent a i j + (l.map (fun m => ent m i j)).sum := by
  induction l generalizing a with
  | nil => exact ⟨ha, fun i j => by simp⟩
  | cons m l ih =>
    have hm : HasShape m p f := hl m (by simp)
    have hl' : ∀ m' ∈ l, HasShape m' p f := fun m' hm' => hl m' (by simp [hm'])
    have step := ih (matAdd a m) (shape_matAdd a m p f ha hm) hl'
    refine ⟨step.1, fun i j => ?_⟩
    rw [List.foldl_cons, step.2 i j, ent_matAdd a m p f ha hm i j]
    simp [add_assoc]

lemma ent_matDivR (M : List (List ℂ)) (c : ℝ) (i j : ℕ) :
    ent (matDivR M c) i j = ent M i j / (c : ℂ) := by
  by_cases hi : i < M.length
  · have hi' : i < (matDivR M c).length := by simpa [matDivR] using hi
    have hrowlen : (matDivR M c)[i].length = M[i].length := by
      simp [matDivR]
    by_cases hj : j < M[i].length
    · have hj' : j < (matDivR M c)[i].length := by rw [hrowlen]; exact hj
      rw [ent_eq_getElem _ i j hi' hj', ent_eq_getElem M i j hi hj]
      simp only [matDivR, List.getElem_map]
    · rw [ent, ent, List.getD_eq_getElem _ _ hi', List.getD_eq_getElem _ _ hi,
        List.getD_eq_default _ _ (by rw [hrowlen]; omega),
        List.getD_eq_default _ _ (by omega)]
      simp
  · rw [ent_out_row _ i j (by simpa [matDivR] using hi),
      ent_out_row M i j (by omega)]
    simp

lemma shape_matDivR (M : List (List ℂ)) (c : ℝ) (p f : ℕ)
    (h : HasShape M p f) : HasShape (matDivR M c) p f := by
  constructor
  · simpa [matDivR] using h.1
  · intro r hr
    simp only [matDivR, List.mem_map] at hr
    obtain ⟨r', hr', rfl⟩ := hr
    simpa using h.2 r' hr'

lemma map_sum_eq_range {α M : Type} [AddCommMonoid M] (l : List α)
    (f : α → M) (d : α) :
    (l.map f).sum = ∑ i ∈ Finset.range l.length, f (l.getD i d) := by
  induction l with
  | nil => simp
  | cons a l ih =>
    rw [List.map_cons, List.sum_cons, List.length_cons,
      Finset.sum_range_succ']
    simp only [List.getD_cons_succ, List.getD_cons_zero]
    rw [ih, add_comm]

lemma ivs_eq (tr : List (List Vec3)) (q : List Vec3) (s : List ℝ) (nf : ℕ)
    (h0 : tr ≠ []) (h1 : tr.length = s.length)
    (h2 : ∀ t ∈ tr, t.length = nf) :
    ∃ M, intermediate_vector_set tr q s = some M ∧
      HasShape M q.length nf ∧
      ∀ i j, ent M i j = (∑ a ∈ Finset.range tr.length,
        ent (serial_worker q (tr.getD a []) (s.getD a 0)) i j) /
          (sumSq s : ℂ) := by
  set per := List.zipWith (fun t s' => serial_worker q t s') tr s
    with hper_def
  have hperlen : per.length = tr.length := by
    rw [hper_def, List.length_zipWith, h1, min_self]
  have hper_get : ∀ a (ha : a < per.length),
      per[a] = serial_worker q (tr.getD a []) (s.getD a 0) := by
    intro a ha
    have hatr : a < tr.length := by rw [← hperlen]; exact ha
    have has : a < s.length := by rw [← h1]; exact hatr
    simp only [hper_def, List.getElem_zipWith]
    rw [List.getD_eq_getElem _ _ hatr, List.getD_eq_getElem _ _ has]
  have hshapes : ∀ m ∈ per, HasShape m q.length nf := by
    intro m hm
    rw [List.mem_iff_getElem] at hm
    obtain ⟨a, ha, rfl⟩ := hm
    rw [hper_get a ha]
    have hs := shape_serial_worker q (tr.getD a []) (s.getD a 0)
    have hatr : a < tr.length := by rw [← hperlen]; exact ha
    have htr : (tr.getD a []).length = nf := by
      rw [List.getD_eq_getElem _ _ hatr]
      exact h2 _ (List.getElem_mem hatr)
    rw [htr] at hs
    exact hs
  have hper_ne : per ≠ [] := by
    intro h
    apply h0
    have hl : tr.length = 0 := by rw [← hperlen, h]; rfl
    exact List.length_eq_zero.1 hl
  obtain ⟨x, xs, hcons⟩ := List.exists_cons_of_ne_nil hper_ne
  have hivs : intermediate_vector_set tr q s =
      some (matDivR (xs.foldl matAdd x) (sumSq s)) := by
    unfold intermediate_vector_set
    rw [← hper_def, hcons]
  have hx : HasShape x q.length nf := hshapes x (by rw [hcons]; simp)
  have hxs : ∀ m ∈ xs, HasShape m q.length nf := by
    intro m hm
    exact hshapes m (by rw [hcons]; simp [hm])
  have hfold := foldl_matAdd_shape_ent xs x q.length nf hx hxs
  refine ⟨_, hivs, shape_matDivR _ _ _ _ hfold.1, fun i j => ?_⟩
  rw [ent_matDivR, hfold.2 i j]
  congr 1
  have hsum : ent x i j + (xs.map (fun m => ent m i j)).sum =
      (per.map (fun m => ent m i j)).sum := by
    rw [hcons, List.map_cons, List.sum_cons]
  rw [hsum, map_sum_eq_range per (fun m => ent m i j) [], hperlen]
  refine Finset.sum_congr rfl (fun a ha => ?_)
  have ha' : a < per.length := by
    rw [hperlen]; exact Finset.mem_range.1 ha
  rw [List.getD_eq_getElem _ _ ha', hper_get a ha']

/-- C1: for every single-atom trajectory (with at least one frame), scalar
weight and wavevector set, `serial_worker` returns exactly, per
wavevector, the sequence built by forming the amplitudes
`a(q,t) = exp(-i q·r(t))`, taking the full linear (non-circular)
autocorrelation of that sequence, multiplying elementwise by the
reciprocal-overlap-count lag weights and by the squared weight, and
keeping the non-negative-lag half from the center to the end — an array
of shape `(#wavevectors, #frames)`. -/
theorem claim_C1_serial_worker_correlation (q : List Vec3) (tr : List Vec3)
    (s : ℝ) (hn : 1 ≤ tr.length) :
    serial_worker q tr s = spec_atom_intensity q tr s ∧
    (serial_worker q tr s).length = q.length ∧
    ∀ r ∈ serial_worker q tr s, r.length = tr.length := by
  have hsw := shape_serial_worker q tr s
  have hsp := shape_spec_atom_intensity q tr s
  refine ⟨matEq_of_ent _ _ q.length tr.length hsw hsp
    (fun i j hi hj => ?_), hsw.1, hsw.2⟩
  rw [sw_ent q tr s i j hn hi hj, spec_atom_intensity_ent q tr s i j hi hj]

/-- Witness for C1 at one atom, one frame, one wavevector. -/
theorem claim_C1_serial_worker_correlation_witness :
    serial_worker [zero3] [zero3] 1 = spec_atom_intensity [zero3] [zero3] 1 :=
  (claim_C1_serial_worker_correlation [zero3] [zero3] 1 (by norm_num)).1

/-- C2: for every nonempty trajectory array (rectangular, one weight per
atom) and wavevector set, `intermediate_vector_set` returns the
elementwise sum of the per-atom `serial_worker` results divided by the
sum over atoms of the squared weights, and the returned array has shape
`(#wavevectors, #frames)` — not `(#wavevectors, 2*#frames - 1)`. -/
theorem claim_C2_ensemble_sum_normalized (tr : List (List Vec3))
    (q : List Vec3) (s_inc : List ℝ) (nf : ℕ) (h0 : tr ≠ [])
    (h1 : tr.length = s_inc.length) (h2 : ∀ t ∈ tr, t.length = nf) :
    ∃ M, intermediate_vector_set tr q s_inc = some M ∧
      M.length = q.length ∧ (∀ r ∈ M, r.length = nf) ∧
      ∀ i j, ent M i j = (∑ a ∈ Finset.range tr.length,
        ent (serial_worker q (tr.getD a []) (s_inc.getD a 0)) i j) /
          (sumSq s_inc : ℂ) := by
  obtain ⟨M, hM, hsh, hent⟩ := ivs_eq tr q s_inc nf h0 h1 h2
  exact ⟨M, hM, hsh.1, hsh.2, hent⟩

/-- Witness for C2 at one atom, one frame, one wavevector, weight 1. -/
theorem claim_C2_ensemble_sum_normalized_witness :
    ∃ M, intermediate_vector_set [[zero3]] [zero3] [(1 : ℝ)] = some M ∧
      M.length = [zero3].length ∧ (∀ r ∈ M, r.length = 1) ∧
      ∀ i j, ent M i j = (∑ a ∈ Finset.range [[zero3]].length,
        ent (serial_worker [zero3] ([[zero3]].getD a [])
          ([(1 : ℝ)].getD a 0)) i j) / (sumSq [(1 : ℝ)] : ℂ) :=
  claim_C2_ensemble_sum_normalized [[zero3]] [zero3] [(1 : ℝ)] 1
    (by simp) (by simp) (by simp)

lemma amp_mul_conj (qv r : Vec3) :
    amp qv r * (starRingEnd ℂ) (amp qv r) = 1 := by
  rw [amp, Complex.mul_conj, Complex.normSq_eq_abs, Complex.abs_exp]
  have h : (-Complex.I * ((dot3 qv r : ℝ) : ℂ)).re = 0 := by simp
  rw [h, Real.exp_zero]
  norm_num

lemma sw_lag0 (q : List Vec3) (tr : List Vec3) (w : ℝ) (i : ℕ)
    (hn : 1 ≤ tr.length) (hi : i < q.length) :
    ent (serial_worker q tr w) i 0 = ((w ^ 2 : ℝ) : ℂ) := by
  rw [sw_ent q tr w i 0 hn hi (by omega)]
  have hone : ∀ t ∈ Finset.range (tr.length - 0),
      amp (q.getD i zero3) (tr.getD (t + 0) zero3) *
        (starRingEnd ℂ) (amp (q.getD i zero3) (tr.getD t zero3)) = 1 := by
    intro t _
    rw [Nat.add_zero]
    exact amp_mul_conj _ _
  rw [Finset.sum_congr rfl hone, Finset.sum_const, Finset.card_range,
    Nat.sub_zero, nsmul_eq_mul, mul_one]
  have hne : ((tr.length : ℕ) : ℂ) ≠ 0 := by
    rw [Nat.cast_ne_zero]
    omega
  push_cast
  field_simp

lemma sumSq_eq_range (s : List ℝ) :
    sumSq s = ∑ a ∈ Finset.range s.length, (s.getD a 0) ^ 2 := by
  rw [sumSq, map_sum_eq_range s (fun x => x * x) 0]
  exact Finset.sum_congr rfl (fun a _ => (pow_two (s.getD a 0)).symm)

/-- C10: for every atom (with at least one frame), wavevector and
weight `w`, the per-atom result at lag 0 is exactly `w²` (unit-modulus
amplitudes make the raw lag-0 autocorrelation `#frames`, which the lag
weight `1/#frames` cancels); consequently, whenever the sum of squared
weights is positive, the lag-0 column of `intermediate_vector_set` is
exactly 1 at every wavevector. -/
theorem claim_C10_lag_zero_column (q : List Vec3) (tr : List (List Vec3))
    (s_inc : List ℝ) (nf : ℕ) (h0 : tr ≠ []) (h1 : tr.length = s_inc.length)
    (h2 : ∀ t ∈ tr, t.length = nf) (h3 : 1 ≤ nf) (h4 : 0 < sumSq s_inc) :
    (∀ (t : List Vec3) (w : ℝ) (i : ℕ), 1 ≤ t.length → i < q.length →
      ent (serial_worker q t w) i 0 = ((w ^ 2 : ℝ) : ℂ)) ∧
    ∃ M, intermediate_vector_set tr q s_inc = some M ∧
      ∀ i < q.length, ent M i 0 = 1 := by
  refine ⟨fun t w i ht hi => sw_lag0 q t w i ht hi, ?_⟩
  obtain ⟨M, hM, _, hent⟩ := ivs_eq tr q s_inc nf h0 h1 h2
  refine ⟨M, hM, fun i hi => ?_⟩
  rw [hent i 0]
  have hterm : ∀ a ∈ Finset.range tr.length,
      ent (serial_worker q (tr.getD a []) (s_inc.getD a 0)) i 0 =
        (((s_inc.getD a 0) ^ 2 : ℝ) : ℂ) := by
    intro a ha
    have hatr := Finset.mem_range.1 ha
    have hlen : (tr.getD a []).length = nf := by
      rw [List.getD_eq_getElem _ _ hatr]
      exact h2 _ (List.getElem_mem hatr)
    exact sw_lag0 q _ _ i (by omega) hi
  rw [Finset.sum_congr rfl hterm]
  have hsum : ∑ a ∈ Finset.range tr.length,
      (((s_inc.getD a 0) ^ 2 : ℝ) : ℂ) = ((sumSq s_inc : ℝ) : ℂ) := by
    rw [← Complex.ofReal_sum, sumSq_eq_range, h1]
  rw [hsum]
  exact div_self (Complex.ofReal_ne_zero.2 (ne_of_gt h4))

/-- Witness for C10 at one atom at the origin, one frame, one wavevector,
weight 1. -/
theorem claim_C10_lag_zero_column_witness :
    ent (serial_worker [zero3] [zero3] (1 : ℝ)) 0 0 = (((1 : ℝ) ^ 2 : ℝ) : ℂ) ∧
    ∃ M, intermediate_vector_set [[zero3]] [zero3] [(1 : ℝ)] = some M ∧
      ∀ i < ([zero3] : List Vec3).length, ent M i 0 = 1 := by
  obtain ⟨ha, hb⟩ := claim_C10_lag_zero_column [zero3] [[zero3]] [(1 : ℝ)] 1
    (by simp) (by simp) (by simp) (by norm_num) (by norm_num [sumSq])
  exact ⟨ha [zero3] 1 0 (by norm_num) (by norm_num), hb⟩

lemma zip_sum_ent (tr : List (List Vec3)) (s : List ℝ)
    (h1 : tr.length = s.length) (g : List Vec3 → ℝ → ℂ) :
    ((tr.zip s).map (fun p => g p.1 p.2)).sum =
      ∑ a ∈ Finset.range tr.length, g (tr.getD a []) (s.getD a 0) := by
  rw [map_sum_eq_range (tr.zip s) _ ([], 0)]
  have hzl : (tr.zip s).length = tr.length := by
    rw [List.length_zip, h1, min_self]
  rw [hzl]
  refine Finset.sum_congr rfl (fun a ha => ?_)
  have hatr : a < tr.length := Finset.mem_range.1 ha
  have has : a < s.length := by rw [← h1]; exact hatr
  have haz : a < (tr.zip s).length := by rw [hzl]; exact hatr
  rw [List.getD_eq_getElem _ _ haz, List.getElem_zip,
    List.getD_eq_getElem _ _ hatr, List.getD_eq_getElem _ _ has]

/-- C7: permuting the atom axis of trajectory and weights simultaneously
(same atoms, different order, rectangular input) does not change the
output of `intermediate_vector_set`: the elementwise sum and the sum of
squared weights are permutation-invariant under exact arithmetic. -/
theorem claim_C7_atom_permutation_invariant (q : List Vec3)
    (tr tr' : List (List Vec3)) (s s' : List ℝ) (nf : ℕ)
    (h1 : tr.length = s.length) (h1' : tr'.length = s'.length)
    (h2 : ∀ t ∈ tr, t.length = nf) (h2' : ∀ t ∈ tr', t.length = nf)
    (hperm : (tr.zip s).Perm (tr'.zip s')) :
    intermediate_vector_set tr q s = intermediate_vector_set tr' q s' := by
  have hzl : (tr.zip s).length = tr.length := by
    rw [List.length_zip, h1, min_self]
  have hzl' : (tr'.zip s').length = tr'.length := by
    rw [List.length_zip, h1', min_self]
  have hlen : tr.length = tr'.length := by
    rw [← hzl, ← hzl', hperm.length_eq]
  have hs_perm : s.Perm s' := by
    have e1 : (tr.zip s).map Prod.snd = s :=
      List.map_snd_zip tr s (le_of_eq h1.symm)
    have e2 : (tr'.zip s').map Prod.snd = s' :=
      List.map_snd_zip tr' s' (le_of_eq h1'.symm)
    rw [← e1, ← e2]
    exact hperm.map Prod.snd
  have hss : sumSq s = sumSq s' := by
    rw [sumSq, sumSq]
    exact (hs_perm.map (fun x => x * x)).sum_eq
  rcases eq_or_ne tr [] with rfl | h0
  · have htr' : tr' = [] := by
      refine List.length_eq_zero.1 ?_
      simpa using hlen.symm
    have hs0 : s = [] := by
      refine List.length_eq_zero.1 ?_
      simpa using h1.symm
    have hs0' : s' = [] := by
      refine List.length_eq_zero.1 ?_
      rw [← h1']
      simpa using hlen.symm
    subst htr' hs0 hs0'
    rfl
  · have h0' : tr' ≠ [] := by
      intro h
      apply h0
      refine List.length_eq_zero.1 ?_
      rw [hlen, h]
      rfl
    obtain ⟨M, hM, hsh, hent⟩ := ivs_eq tr q s nf h0 h1 h2
    obtain ⟨M', hM', hsh', hent'⟩ := ivs_eq tr' q s' nf h0' h1' h2'
    rw [hM, hM']
    congr 1
    refine matEq_of_ent M M' q.length nf hsh hsh' (fun i j _ _ => ?_)
    rw [hent i j, hent' i j, hss]
    congr 1
    rw [← zip_sum_ent tr s h1 (fun t w => ent (serial_worker q t w) i j),
      ← zip_sum_ent tr' s' h1' (fun t w => ent (serial_worker q t w) i j)]
    exact (hperm.map _).sum_eq

/-- Witness for C7: two stationary atoms swapped together with their
weights. -/
theorem claim_C7_atom_permutation_invariant_witness :
    intermediate_vector_set [[zero3], [((1 : ℝ), (0 : ℝ), (0 : ℝ))]] [zero3]
      [(1 : ℝ), (2 : ℝ)] =
    intermediate_vector_set [[((1 : ℝ), (0 : ℝ), (0 : ℝ))], [zero3]] [zero3]
      [(2 : ℝ), (1 : ℝ)] := by
  refine claim_C7_atom_permutation_invariant [zero3]
    [[zero3], [((1 : ℝ), (0 : ℝ), (0 : ℝ))]]
    [[((1 : ℝ), (0 : ℝ), (0 : ℝ))], [zero3]]
    [(1 : ℝ), (2 : ℝ)] [(2 : ℝ), (1 : ℝ)] 1 (by simp) (by simp)
    (by simp) (by simp) ?_
  have h := List.Perm.swap ([((1 : ℝ), (0 : ℝ), (0 : ℝ))], (2 : ℝ))
    ([zero3], (1 : ℝ)) ([] : List (List Vec3 × ℝ))
  simpa using h

lemma average_axis0_singleton (r : List ℂ) : average_axis0 [r] = r := by
  refine List.ext_getElem ?_ (fun k h1 h2 => ?_)
  · simp [average_axis0]
  · simp only [average_axis0, List.getD_cons_zero, List.getElem_map,
      List.getElem_range, List.map_cons, List.map_nil, List.sum_cons,
      List.sum_nil, add_zero, List.length_cons, List.length_nil]
    rw [List.getD_eq_getElem _ _ h2]
    norm_num

/-- C8: on a wavevector set of size 1 (rectangular input),
`intermediate` with the default averaging policy (unweighted mean over
axis 0) returns the single row of `intermediate_vector_set` unchanged:
averaging over a one-element wavevector axis is the identity on the
remaining `(#frames,)` series. -/
theorem claim_C8_singleton_average_identity (tr : List (List Vec3))
    (s_inc : List ℝ) (qv : Vec3) (nf : ℕ) (h1 : tr.length = s_inc.length)
    (h2 : ∀ t ∈ tr, t.length = nf) :
    intermediate tr [qv] s_inc average_axis0 =
      Option.map (fun M => M.getD 0 [])
        (intermediate_vector_set tr [qv] s_inc) := by
  rcases eq_or_ne tr [] with rfl | h0
  · rfl
  · obtain ⟨M, hM, hsh, _⟩ := ivs_eq tr [qv] s_inc nf h0 h1 h2
    rw [intermediate, hM]
    have hM1 : M.length = 1 := by simpa using hsh.1
    obtain ⟨r, rfl⟩ : ∃ r, M = [r] := by
      cases M with
      | nil => simp at hM1
      | cons a l =>
        cases l with
        | nil => exact ⟨a, rfl⟩
        | cons b l' => simp at hM1
    simp only [Option.map_some']
    rw [average_axis0_singleton]
    rfl

/-- Witness for C8 at one atom, one frame, weight 1. -/
theorem claim_C8_singleton_average_identity_witness :
    intermediate [[zero3]] [zero3] [(1 : ℝ)] average_axis0 =
      Option.map (fun M => M.getD 0 [])
        (intermediate_vector_set [[zero3]] [zero3] [(1 : ℝ)]) :=
  claim_C8_singleton_average_identity [[zero3]] [(1 : ℝ)] zero3 1
    (by simp) (by simp)

/-- C9: `intermediate_spherical` returns one row per requested wavevector
magnitude, in input order (no reordering or deduplication): row `i` is
the real part of the averaged series computed for the `i`-th input
magnitude, and every row has length `#frames`.  (`qvec.sphere_average`
is the spec's external sampling collaborator, passed as `sphereAvg`.) -/
theorem claim_C9_shell_table_rows (sphereAvg : ℝ → List Vec3)
    (tr : List (List Vec3)) (q_mod : List ℝ) (s_inc : List ℝ) (nf : ℕ)
    (h0 : tr ≠ []) (h1 : tr.length = s_inc.length)
    (h2 : ∀ t ∈ tr, t.length = nf) (h4 : ∀ m ∈ q_mod, sphereAvg m ≠ []) :
    (intermediate_spherical sphereAvg tr q_mod s_inc).length =
      q_mod.length ∧
    ∀ i < q_mod.length, ∃ row : List ℝ,
      (intermediate_spherical sphereAvg tr q_mod s_inc).getD i none =
        some row ∧ row.length = nf ∧
      some row = Option.map (fun r => r.map Complex.re)
        (intermediate tr (sphereAvg (q_mod.getD i 0)) s_inc
          average_axis0) := by
  constructor
  · simp [intermediate_spherical]
  · intro i hi
    have hi' : i < (intermediate_spherical sphereAvg tr q_mod s_inc).length := by
      simpa [intermediate_spherical] using hi
    rw [List.getD_eq_getElem _ _ hi']
    simp only [intermediate_spherical, List.getElem_map]
    rw [show q_mod[i] = q_mod.getD i 0 from
      (List.getD_eq_getElem q_mod 0 hi).symm]
    obtain ⟨M, hM, hsh, _⟩ :=
      ivs_eq tr (sphereAvg (q_mod.getD i 0)) s_inc nf h0 h1 h2
    have hm_mem : q_mod.getD i 0 ∈ q_mod := by
      rw [List.getD_eq_getElem q_mod 0 hi]
      exact List.getElem_mem hi
    have hMpos : 0 < M.length := by
      rw [hsh.1]
      exact List.length_pos.2 (h4 _ hm_mem)
    have hrow0 : (M.getD 0 []).length = nf := by
      rw [List.getD_eq_getElem _ _ hMpos]
      exact hsh.2 _ (List.getElem_mem hMpos)
    simp only [intermediate, hM, Option.map_some']
    refine ⟨(average_axis0 M).map Complex.re, rfl, ?_, rfl⟩
    rw [List.length_map]
    have hal : (average_axis0 M).length = (M.getD 0 []).length := by
      simp [average_axis0]
    rw [hal, hrow0]

/-- Witness for C9 with a constant sampling collaborator, one magnitude,
one atom, one frame. -/
theorem claim_C9_shell_table_rows_witness :
    (intermediate_spherical (fun _ => [zero3]) [[zero3]] [(1 : ℝ)]
      [(1 : ℝ)]).length = ([(1 : ℝ)] : List ℝ).length ∧
    ∀ i < ([(1 : ℝ)] : List ℝ).length, ∃ row : List ℝ,
      (intermediate_spherical (fun _ => [zero3]) [[zero3]] [(1 : ℝ)]
        [(1 : ℝ)]).getD i none = some row ∧ row.length = 1 ∧
      some row = Option.map (fun r => r.map Complex.re)
        (intermediate [[zero3]] ((fun _ => [zero3]) (([(1 : ℝ)] : List ℝ).getD i 0))
          [(1 : ℝ)] average_axis0) :=
  claim_C9_shell_table_rows (fun _ => [zero3]) [[zero3]] [(1 : ℝ)]
    [(1 : ℝ)] 1 (by simp) (by simp) (by simp) (by simp)

lemma ivs_singleton (t : List Vec3) (q : List Vec3) (w : ℝ) :
    intermediate_vector_set [t] q [w] =
      some (matDivR (serial_worker q t w) (sumSq [w])) := rfl

/-- C5 shows the code slip: with every weight zero the normalization
denominator `np.sum(s_inc * s_inc)` is zero, yet `intermediate_vector_set`
raises nothing and performs the division anyway, returning an array (in
IEEE arithmetic an all-NaN array; in this exact-arithmetic model the
zero matrix, by the `x / 0 = 0` convention). -/
theorem claim_C5_zero_weights_silent_division :
    sumSq [(0 : ℝ)] = 0 ∧
    intermediate_vector_set [[zero3]] [zero3] [(0 : ℝ)] =
      some [[(0 : ℂ)]] := by
  constructor
  · simp [sumSq]
  · have hsw : serial_worker [zero3] [zero3] (0 : ℝ) = [[0]] := by
      simp [serial_worker, lagWeights, correlateFull, ampSeries,
        List.range_succ, List.range_zero]
    rw [ivs_singleton, hsw]
    simp [matDivR]

/-- C6 shows the code slip: `pool.uimap(serial_worker, tr, s_inc)` zips
atoms with weights and silently truncates to the shorter sequence, so a
call with two atoms and a single weight computes exactly the one-atom
result instead of failing fast with an argument error. -/
theorem claim_C6_mismatch_silently_truncates (t0 t1 : List Vec3)
    (q : List Vec3) (w : ℝ) :
    intermediate_vector_set [t0, t1] q [w] =
      intermediate_vector_set [t0] q [w] := rfl

/-- Counterexample to C3: one atom moving from the origin to `(1,0,0)`
over two frames, probed at wavevector `(1,0,0)` with weight 1 — the
lag-1 entry of the returned array is `exp(-i)`, whose imaginary part
`-sin 1` is nonzero, so the output is not real-valued. -/
theorem claim_C3_counterexample_nonreal_entry :
    (ent ((intermediate_vector_set
        [[zero3, ((1 : ℝ), (0 : ℝ), (0 : ℝ))]]
        [((1 : ℝ), (0 : ℝ), (0 : ℝ))] [(1 : ℝ)]).getD []) 0 1).im ≠ 0 := by
  obtain ⟨M, hM, _, hent⟩ := ivs_eq
    [[zero3, ((1 : ℝ), (0 : ℝ), (0 : ℝ))]]
    [((1 : ℝ), (0 : ℝ), (0 : ℝ))] [(1 : ℝ)] 2 (by simp) (by simp) (by simp)
  rw [hM, Option.getD_some, hent 0 1]
  simp only [List.length_cons, List.length_nil, zero_add]
  rw [Finset.sum_range_one]
  simp only [List.getD_cons_zero]
  rw [sw_ent [((1 : ℝ), (0 : ℝ), (0 : ℝ))]
    [zero3, ((1 : ℝ), (0 : ℝ), (0 : ℝ))] 1 0 1
    (by norm_num) (by norm_num) (by norm_num)]
  simp only [List.length_cons, List.length_nil, List.getD_cons_zero,
    List.getD_cons_succ]
  have h21 : (2 - 1 : ℕ) = 1 := rfl
  rw [h21, Finset.sum_range_one]
  simp only [Nat.zero_add, List.getD_cons_succ, List.getD_cons_zero]
  have hd0 : dot3 ((1 : ℝ), (0 : ℝ), (0 : ℝ)) zero3 = 0 := by
    norm_num [dot3, zero3]
  have hd1 : dot3 ((1 : ℝ), (0 : ℝ), (0 : ℝ)) ((1 : ℝ), (0 : ℝ), (0 : ℝ)) = 1 := by
    norm_num [dot3]
  rw [amp, amp, hd0, hd1]
  rw [Complex.ofReal_zero, mul_zero, Complex.exp_zero, map_one, mul_one]
  have hco : ((1 / ((2 : ℕ) - (1 : ℕ) : ℝ) * (1 : ℝ) ^ 2 : ℝ) : ℂ) = 1 := by
    norm_num
  have hsum1 : sumSq [(1 : ℝ)] = 1 := by norm_num [sumSq]
  rw [hsum1]
  push_cast
  have hz : (1 / ((2 : ℂ) - 1) * (1 : ℂ) ^ 2 *
      Complex.exp (-Complex.I * 1) / 1) = Complex.exp (-Complex.I * 1) := by
    norm_num
  rw [hz, Complex.exp_im]
  have hpos : 0 < Real.sin 1 :=
    Real.sin_pos_of_pos_of_lt_pi one_pos (by linarith [Real.pi_gt_three])
  simp only [mul_one, Complex.neg_re, Complex.neg_im, Complex.I_re,
    Complex.I_im, neg_zero, Real.exp_zero, one_mul, Real.sin_neg,
    ne_eq, neg_eq_zero]
  exact ne_of_gt hpos

/-- C3 amended: the per-atom output of `serial_worker` and the ensemble
output of `intermediate_vector_set` are complex-valued arrays whose
entries may have nonzero imaginary part (the real part is only taken
downstream, in `intermediate_spherical`); only the lag-0 column is
guaranteed real — its imaginary part is zero for every real trajectory,
weight and wavevector set. -/
theorem claim_C3_amended_lag_zero_entries_real (q : List Vec3)
    (t : List Vec3) (w : ℝ) (tr : List (List Vec3)) (s_inc : List ℝ)
    (nf : ℕ) (h0 : tr ≠ []) (h1 : tr.length = s_inc.length)
    (h2 : ∀ u ∈ tr, u.length = nf) (h3 : 1 ≤ nf) (ht : 1 ≤ t.length) :
    (∀ i < q.length, (ent (serial_worker q t w) i 0).im = 0) ∧
    ∃ M, intermediate_vector_set tr q s_inc = some M ∧
      ∀ i < q.length, (ent M i 0).im = 0 := by
  constructor
  · intro i hi
    rw [sw_lag0 q t w i ht hi]
    exact Complex.ofReal_im _
  · obtain ⟨M, hM, _, hent⟩ := ivs_eq tr q s_inc nf h0 h1 h2
    refine ⟨M, hM, fun i hi => ?_⟩
    rw [hent i 0]
    have hterm : ∀ a ∈ Finset.range tr.length,
        ent (serial_worker q (tr.getD a []) (s_inc.getD a 0)) i 0 =
          (((s_inc.getD a 0) ^ 2 : ℝ) : ℂ) := by
      intro a ha
      have hatr := Finset.mem_range.1 ha
      have hlen : (tr.getD a []).length = nf := by
        rw [List.getD_eq_getElem _ _ hatr]
        exact h2 _ (List.getElem_mem hatr)
      exact sw_lag0 q _ _ i (by omega) hi
    rw [Finset.sum_congr rfl hterm, ← Complex.ofReal_sum,
      ← Complex.ofReal_div]
    exact Complex.ofReal_im _

/-- Witness for the amended C3 at one atom, one frame, weight 1. -/
theorem claim_C3_amended_lag_zero_entries_real_witness :
    (∀ i < ([zero3] : List Vec3).length,
      (ent (serial_worker [zero3] [zero3] (1 : ℝ)) i 0).im = 0) ∧
    ∃ M, intermediate_vector_set [[zero3]] [zero3] [(1 : ℝ)] = some M ∧
      ∀ i < ([zero3] : List Vec3).length, (ent M i 0).im = 0 :=
  claim_C3_amended_lag_zero_entries_real [zero3] [zero3] 1 [[zero3]]
    [(1 : ℝ)] 1 (by simp) (by simp) (by simp) (by norm_num) (by norm_num)
